import Mathlib

/-!
Verification of the git-checkouts reporting core of `cargo-cache`
(`src/top_items/git_checkouts.rs`).

Modelling conventions:
* Rust `String` / `&str` values are modelled as `List Char`; a `PathBuf` is the
  list of its segments, each a `List Char`.
* Rust `u32` / `u64` arithmetic is modelled on `Nat` with an explicit
  `% 2 ^ 32` / `% 2 ^ 64` at each wrapping addition.
* Fallible steps -- `unwrap`, `panic`, and the `unreachable` arm of the
  aggregation loop -- are modelled with `Except Panic`; `.error` marks the
  program aborting.
* The filesystem accessed by `ChkInfo::new` and the size prober is an explicit
  parameter `FS` (which paths exist, metadata length, directory walk).
-/

/-- A path segment or string value: a list of characters. -/
abbrev Seg := List Char

/-- A `PathBuf`, as its list of segments. -/
abbrev PathBuf := List Seg

/-- The ways the translated code can abort: `unwrapFailed` for any failing
`unwrap` or explicit panic, `unreachableHit` for the dead arm of the
aggregation loop. -/
inductive Panic where
  | unwrapFailed : Panic
  | unreachableHit : Panic
deriving DecidableEq, Repr

/-- Result of running a fragment that may abort. -/
abbrev Res (α : Type) := Except Panic α

instance {α : Type} [DecidableEq α] : DecidableEq (Res α) := fun a b =>
  match a, b with
  | .error x, .error y =>
    if h : x = y then isTrue (by rw [h]) else isFalse (by intro hc; cases hc; exact h rfl)
  | .error _, .ok _ => isFalse (by intro hc; cases hc)
  | .ok _, .error _ => isFalse (by intro hc; cases hc)
  | .ok x, .ok y =>
    if h : x = y then isTrue (by rw [h]) else isFalse (by intro hc; cases hc; exact h rfl)

/-- The filesystem as seen by the translated code: which paths exist, the
metadata length of a path (`none` models a failing `fs::metadata` call), and
the list of files a `WalkDir` walk of a path yields. -/
structure FS where
  pathExists : PathBuf → Bool
  metadataLen : PathBuf → Option Nat
  walk : PathBuf → List PathBuf

/-- A filesystem on which nothing exists and every walk is empty. -/
def noFS : FS where
  pathExists := fun _ => false
  metadataLen := fun _ => none
  walk := fun _ => []

/-- The ASCII hyphen that `name_from_pb` and `ChkInfo::new` split on. -/
def hyphenChar : Char := '-'

/-- String literal to character list, for concrete inputs. -/
def chars (s : String) : List Char := s.toList

/-- `str.split('-')` on a character list: splits at every occurrence of `c`,
yielding at least one (possibly empty) token. -/
def splitOnChar (c : Char) : List Char → List (List Char)
  | [] => [[]]
  | x :: xs =>
    if x = c then [] :: splitOnChar c xs
    else
      match splitOnChar c xs with
      | [] => [[x]]
      | t :: ts => (x :: t) :: ts

/-- `Vec<&str>::join("-")`: interleave a hyphen between the tokens. -/
def joinHyphen : List (List Char) → List Char
  | [] => []
  | [t] => t
  | t :: t2 :: ts => t ++ hyphenChar :: joinHyphen (t2 :: ts)

/-- `FileDesc` from the source: one measured checkout. -/
structure FileDesc where
  path : PathBuf
  name : List Char
  size : Nat
deriving DecidableEq, Repr

instance : Inhabited FileDesc := ⟨⟨[], [], 0⟩⟩

/-- `name_from_pb`: drop the final path segment, take the new final segment,
split it on hyphens, drop the last token, rejoin with hyphens.  Each failing
`unwrap` of the source (`split_last` on an empty slice) is an `.error`. -/
def name_from_pb (path : PathBuf) : Res (List Char) :=
  match path.getLast? with
  | none => .error .unwrapFailed
  | some _last =>
    match path.dropLast.getLast? with
    | none => .error .unwrapFailed
    | some last =>
      match (splitOnChar hyphenChar last).getLast? with
      | none => .error .unwrapFailed
      | some _ => .ok (joinHyphen (splitOnChar hyphenChar last).dropLast)

/-- `ChkInfo` from the source: one aggregated group. -/
structure ChkInfo where
  name : List Char
  size : Nat
  counter : Nat
  total_size : Nat
deriving DecidableEq, Repr

instance : Inhabited ChkInfo := ⟨⟨[], 0, 0, 0⟩⟩

/-- `ChkInfo::new`: if the path exists, the name is the parent segment with its
last hyphen-separated token dropped and the size comes from `fs::metadata`
(whose failure panics); otherwise the name is the final segment of the path
and the size is 0. -/
def ChkInfo.new (fs : FS) (path : PathBuf) (counter : Nat) (total_size : Nat) : Res ChkInfo :=
  if fs.pathExists path then
    match path.dropLast.getLast? with
    | none => .error .unwrapFailed
    | some name_tmp =>
      match fs.metadataLen path with
      | none => .error .unwrapFailed
      | some size =>
        .ok { name := joinHyphen (splitOnChar hyphenChar name_tmp).dropLast
              size := size, counter := counter, total_size := total_size }
  else
    match path.getLast? with
    | none => .error .unwrapFailed
    | some name_tmp => .ok { name := name_tmp, size := 0, counter := counter, total_size := total_size }

/-! ### Basic facts about `splitOnChar` and `joinHyphen` -/

theorem splitOnChar_ne_nil (c : Char) (s : List Char) : splitOnChar c s ≠ [] := by
  induction s with
  | nil => simp [splitOnChar]
  | cons x xs ih =>
    simp only [splitOnChar]
    split
    · simp
    · split
      · simp
      · simp

theorem splitOnChar_not_mem (c : Char) (s : List Char) (h : c ∉ s) :
    splitOnChar c s = [s] := by
  induction s with
  | nil => rfl
  | cons x xs ih =>
    simp only [List.mem_cons, not_or] at h
    have hx : ¬ x = c := fun hh => h.1 hh.symm
    simp only [splitOnChar, if_neg hx, ih h.2]

theorem splitOnChar_append (c : Char) (base s : List Char) (hs : c ∉ s) :
    splitOnChar c (base ++ c :: s) = splitOnChar c base ++ [s] := by
  induction base with
  | nil =>
    have h1 : splitOnChar c (c :: s) = [] :: splitOnChar c s := by
      simp [splitOnChar]
    rw [List.nil_append, h1, splitOnChar_not_mem c s hs]
    rfl
  | cons x b ih =>
    show splitOnChar c (x :: (b ++ c :: s)) = splitOnChar c (x :: b) ++ [s]
    simp only [splitOnChar]
    by_cases hx : x = c
    · rw [if_pos hx, if_pos hx, ih]
      rfl
    · rw [if_neg hx, if_neg hx, ih]
      cases hb : splitOnChar c b with
      | nil => exact absurd hb (splitOnChar_ne_nil c b)
      | cons t ts => rfl

theorem joinHyphen_splitOnChar (s : List Char) :
    joinHyphen (splitOnChar hyphenChar s) = s := by
  induction s with
  | nil => rfl
  | cons x xs ih =>
    simp only [splitOnChar]
    by_cases hx : x = hyphenChar
    · rw [if_pos hx, hx]
      cases hr : splitOnChar hyphenChar xs with
      | nil => exact absurd hr (splitOnChar_ne_nil hyphenChar xs)
      | cons t ts =>
        rw [hr] at ih
        simp only [joinHyphen, List.nil_append, ih]
    · rw [if_neg hx]
      cases hr : splitOnChar hyphenChar xs with
      | nil => exact absurd hr (splitOnChar_ne_nil hyphenChar xs)
      | cons t ts =>
        rw [hr] at ih
        show joinHyphen ((x :: t) :: ts) = x :: xs
        cases ts with
        | nil =>
          have ht : t = xs := by simpa [joinHyphen] using ih
          simp [joinHyphen, ht]
        | cons t2 ts2 =>
          simp only [joinHyphen] at ih ⊢
          rw [List.cons_append, ih]

/-! ### C8: when the identity extractor fails -/

/-- C8: `name_from_pb` fails exactly on paths with fewer than two segments.
(The other failure condition named by the spec -- the suffix-bearing segment
not being splittable -- never happens: `splitOnChar` always returns at least
one token, so the third `unwrap` of the source never fires.) -/
theorem name_from_pb_fails_iff (path : PathBuf) :
    (name_from_pb path).isOk = false ↔ path.length < 2 := by
  match path with
  | [] => simp [name_from_pb, Except.isOk, Except.toBool]
  | [a] => simp [name_from_pb, Except.isOk, Except.toBool]
  | a :: b :: rest =>
    have hne : (a :: b :: rest).dropLast ≠ [] := by
      cases rest with
      | nil => simp
      | cons c cs => simp [List.dropLast]
    have hok : (name_from_pb (a :: b :: rest)).isOk = true := by
      simp only [name_from_pb]
      cases hl : (a :: b :: rest).getLast? with
      | none =>
        rw [List.getLast?_eq_none_iff] at hl
        simp at hl
      | some v =>
        cases hdl : (a :: b :: rest).dropLast.getLast? with
        | none =>
          rw [List.getLast?_eq_none_iff] at hdl
          exact absurd hdl hne
        | some w =>
          cases hs : (splitOnChar hyphenChar w).getLast? with
          | none =>
            rw [List.getLast?_eq_none_iff] at hs
            exact absurd hs (splitOnChar_ne_nil hyphenChar w)
          | some t => simp [hs, Except.isOk, Except.toBool]
    rw [hok]
    simp [List.length_cons]

/-! ### C9: the identity is independent of the unique suffix and revision -/

theorem name_from_pb_checkout (pre : PathBuf) (base s rev : List Char)
    (hs : hyphenChar ∉ s) :
    name_from_pb (pre ++ [base ++ hyphenChar :: s, rev]) = .ok base := by
  have hp : pre ++ [base ++ hyphenChar :: s, rev]
      = (pre ++ [base ++ hyphenChar :: s]) ++ [rev] := by
    simp
  rw [hp]
  simp only [name_from_pb, List.getLast?_concat, List.dropLast_concat,
    splitOnChar_append hyphenChar base s hs, joinHyphen_splitOnChar]

/-- C9: two well-formed checkout paths `.../<base>-<suffix>/<revision>` that
differ only in their hyphen-free unique-suffix token and their revision
segment get the same name from `name_from_pb`. -/
theorem name_from_pb_suffix_independent (pre : PathBuf) (base s1 s2 r1 r2 : List Char)
    (h1 : hyphenChar ∉ s1) (h2 : hyphenChar ∉ s2) :
    name_from_pb (pre ++ [base ++ hyphenChar :: s1, r1])
      = name_from_pb (pre ++ [base ++ hyphenChar :: s2, r2]) := by
  rw [name_from_pb_checkout pre base s1 r1 h1, name_from_pb_checkout pre base s2 r2 h2]

/-- Witness for C9 at the two checkout paths of the source file's unit tests. -/
theorem name_from_pb_suffix_independent_witness :
    hyphenChar ∉ chars "16826c8e13331adc" ∧ hyphenChar ∉ chars "f496aa2c" ∧
      name_from_pb ([chars "home", chars ".cargo", chars "git", chars "checkouts"]
          ++ [chars "cargo-cache" ++ hyphenChar :: chars "16826c8e13331adc", chars "0f9966c"])
        = name_from_pb ([chars "home", chars ".cargo", chars "git", chars "checkouts"]
          ++ [chars "cargo-cache" ++ hyphenChar :: chars "f496aa2c", chars "f4fc9eb"]) :=
  ⟨by decide, by decide,
    name_from_pb_suffix_independent
      [chars "home", chars ".cargo", chars "git", chars "checkouts"]
      (chars "cargo-cache") (chars "16826c8e13331adc") (chars "f496aa2c")
      (chars "0f9966c") (chars "f4fc9eb") (by decide) (by decide)⟩

/-! ### The consecutive-run aggregator -/

/-- The placeholder path `PathBuf::from("ERROR 1/err1")` that initialises the
pending-group accumulator before the loop. -/
def errPath1 : PathBuf := [chars "ERROR 1", chars "err1"]

/-- The placeholder path `PathBuf::from("ERROR 2/err2")` installed after the
final group is flushed. -/
def errPath2 : PathBuf := [chars "ERROR 2", chars "err2"]

/-- One execution of the `match &state` block inside the loop of
`stats_from_file_desc_list`: from the two-slot window and the running
accumulator it produces the updated `(out, chkinfo, counter, total_size)`.
The arm with both slots empty is the source's dead arm. -/
def statsBody (fs : FS) (previous current : Option FileDesc) (out : List ChkInfo)
    (chkinfo : ChkInfo) (counter total_size : Nat) :
    Res (List ChkInfo × ChkInfo × Nat × Nat) :=
  match previous, current with
  | none, none => .error .unreachableHit
  | none, some current =>
    let total_size := (total_size + current.size) % 2 ^ 64
    let counter := (counter + 1) % 2 ^ 32
    match ChkInfo.new fs current.path counter total_size with
    | .error e => .error e
    | .ok chkinfo => .ok (out, chkinfo, counter, total_size)
  | some previous, some current =>
    if current.name = previous.name then
      let total_size := (total_size + current.size) % 2 ^ 64
      let counter := (counter + 1) % 2 ^ 32
      match ChkInfo.new fs current.path counter total_size with
      | .error e => .error e
      | .ok chkinfo => .ok (out, chkinfo, counter, total_size)
    else
      let out := out ++ [chkinfo]
      let counter := 0
      let total_size := 0
      let total_size := (total_size + current.size) % 2 ^ 64
      let counter := (counter + 1) % 2 ^ 32
      match ChkInfo.new fs current.path counter total_size with
      | .error e => .error e
      | .ok chkinfo => .ok (out, chkinfo, counter, total_size)
  | some _previous, none =>
    let out := out ++ [chkinfo]
    match ChkInfo.new fs errPath2 0 0 with
    | .error e => .error e
    | .ok chkinfo => .ok (out, chkinfo, 0, 0)

/-- The `while state.previous.is_some() || state.current.is_some()` loop of
`stats_from_file_desc_list`: run the body, then shift the window and pull the
next descriptor from the iterator. -/
def statsLoop (fs : FS) (iter : List FileDesc) (previous current : Option FileDesc)
    (out : List ChkInfo) (chkinfo : ChkInfo) (counter total_size : Nat) :
    Res (List ChkInfo) :=
  if previous.isNone && current.isNone then .ok out
  else
    match statsBody fs previous current out chkinfo counter total_size with
    | .error e => .error e
    | .ok (out2, ci2, k2, t2) => statsLoop fs iter.tail current iter.head? out2 ci2 k2 t2
termination_by
  2 * iter.length + (if current.isSome then 2 else 0) + (if previous.isSome then 1 else 0)
decreasing_by
  cases iter <;> cases previous <;> cases current <;> simp_all <;> omega

/-- `stats_from_file_desc_list` from the source: initialise the accumulator
from the `ERROR 1/err1` placeholder, seed the window with the first descriptor,
and run the loop. -/
def stats_from_file_desc_list (fs : FS) (file_descs : List FileDesc) : Res (List ChkInfo) :=
  match ChkInfo.new fs errPath1 0 0 with
  | .error e => .error e
  | .ok chkinfo => statsLoop fs file_descs.tail none file_descs.head? [] chkinfo 0 0

/-- Proof-layer view of the loop state: the not-yet-processed descriptors as a
single list whose head sits in the `current` slot. -/
def loopFrom (fs : FS) (l : List FileDesc) (previous : Option FileDesc)
    (out : List ChkInfo) (chkinfo : ChkInfo) (counter total_size : Nat) :
    Res (List ChkInfo) :=
  statsLoop fs l.tail previous l.head? out chkinfo counter total_size

/-! ### The name and size `ChkInfo::new` assigns, and when it succeeds -/

/-- The name and size components `ChkInfo::new` computes for a path; the
counter and total are passed through unchanged. -/
def newNameSize (fs : FS) (path : PathBuf) : Res (List Char × Nat) :=
  (ChkInfo.new fs path 0 0).map fun ci => (ci.name, ci.size)

/-- `ChkInfo::new` succeeds on this path (no failing unwrap or metadata call). -/
def NewOk (fs : FS) (path : PathBuf) : Prop := (newNameSize fs path).isOk = true

instance (fs : FS) (path : PathBuf) : Decidable (NewOk fs path) := by
  unfold NewOk; infer_instance

/-- The name component `ChkInfo::new` computes for a path (junk if it fails). -/
def pathName (fs : FS) (path : PathBuf) : List Char :=
  ((newNameSize fs path).toOption.getD ([], 0)).1

/-- The size component `ChkInfo::new` computes for a path (junk if it fails). -/
def pathSize (fs : FS) (path : PathBuf) : Nat :=
  ((newNameSize fs path).toOption.getD ([], 0)).2

theorem ChkInfo.new_shape (fs : FS) (path : PathBuf) (k t : Nat) :
    ChkInfo.new fs path k t = (newNameSize fs path).map fun ns => ⟨ns.1, ns.2, k, t⟩ := by
  unfold newNameSize ChkInfo.new
  by_cases he : fs.pathExists path
  · rw [if_pos he, if_pos he]
    cases path.dropLast.getLast? with
    | none => rfl
    | some w =>
      cases fs.metadataLen path with
      | none => rfl
      | some sz => rfl
  · rw [if_neg he, if_neg he]
    cases path.getLast? with
    | none => rfl
    | some w => rfl

theorem ChkInfo.new_ok (fs : FS) (path : PathBuf) (h : NewOk fs path) (k t : Nat) :
    ChkInfo.new fs path k t = .ok ⟨pathName fs path, pathSize fs path, k, t⟩ := by
  rw [ChkInfo.new_shape]
  unfold NewOk at h
  cases hn : newNameSize fs path with
  | error e => rw [hn] at h; simp [Except.isOk, Except.toBool] at h
  | ok v =>
    unfold pathName pathSize
    rw [hn]
    rfl

/-! ### Unfolding the loop -/

theorem loopFrom_nil_none (fs : FS) (out : List ChkInfo) (ci : ChkInfo) (k t : Nat) :
    loopFrom fs [] none out ci k t = .ok out := by
  rw [loopFrom, statsLoop]
  rfl

theorem loopFrom_nil_some (fs : FS) (p : FileDesc) (out : List ChkInfo) (ci : ChkInfo)
    (k t : Nat) :
    loopFrom fs [] (some p) out ci k t =
      match ChkInfo.new fs errPath2 0 0 with
      | .error e => .error e
      | .ok _ => .ok (out ++ [ci]) := by
  rw [loopFrom, statsLoop]
  show (match statsBody fs (some p) none out ci k t with
        | Except.error e => Except.error e
        | Except.ok (out2, ci2, k2, t2) => statsLoop fs [] none none out2 ci2 k2 t2) = _
  rw [statsBody]
  cases h : ChkInfo.new fs errPath2 0 0 with
  | error e => rfl
  | ok v =>
    show statsLoop fs [] none none (out ++ [ci]) v 0 0 = .ok (out ++ [ci])
    rw [statsLoop]
    rfl

theorem loopFrom_cons (fs : FS) (c : FileDesc) (l : List FileDesc)
    (prev : Option FileDesc) (out : List ChkInfo) (ci : ChkInfo) (k t : Nat) :
    loopFrom fs (c :: l) prev out ci k t =
      match statsBody fs prev (some c) out ci k t with
      | .error e => .error e
      | .ok (out2, ci2, k2, t2) => loopFrom fs l (some c) out2 ci2 k2 t2 := by
  rw [loopFrom]
  show statsLoop fs l prev (some c) out ci k t = _
  rw [statsLoop]
  have hcond : (prev.isNone && (some c : Option FileDesc).isNone) = false := by
    cases prev <;> rfl
  rw [hcond]
  show (match statsBody fs prev (some c) out ci k t with
        | Except.error e => Except.error e
        | Except.ok (out2, ci2, k2, t2) => statsLoop fs l.tail (some c) l.head? out2 ci2 k2 t2) = _
  cases h : statsBody fs prev (some c) out ci k t with
  | error e => rfl
  | ok v => rfl

/-! ### Runs and the groups the loop produces for them -/

/-- Sum of the descriptor sizes of a run. -/
def sumSizes (r : List FileDesc) : Nat := (r.map FileDesc.size).sum

/-- The shared name of a run: the name of its head. -/
def runName (r : List FileDesc) : List Char := r.headI.name

/-- The aggregated record the loop builds for one finished run: name and size
from `ChkInfo::new` on the last descriptor's path, counter and total with the
`u32` / `u64` wrapping. -/
def groupOf (fs : FS) (r : List FileDesc) : ChkInfo :=
  ⟨pathName fs (r.getLastD default).path, pathSize fs (r.getLastD default).path,
    r.length % 2 ^ 32, sumSizes r % 2 ^ 64⟩

theorem getLastD_mem {α : Type} (l : List α) (a : α) (h : l ≠ []) : l.getLastD a ∈ l := by
  induction l generalizing a with
  | nil => exact absurd rfl h
  | cons b l ih =>
    rw [List.getLastD_cons]
    cases l with
    | nil => simp [List.getLastD]
    | cons c l2 => exact List.mem_cons_of_mem b (ih b (by simp))

theorem ChkInfo.new_ok_inv (fs : FS) (path : PathBuf) (k t : Nat) (ci : ChkInfo)
    (h : ChkInfo.new fs path k t = .ok ci) :
    NewOk fs path ∧ ci = ⟨pathName fs path, pathSize fs path, k, t⟩ := by
  rw [ChkInfo.new_shape] at h
  cases hn : newNameSize fs path with
  | error e => rw [hn] at h; simp [Except.map] at h
  | ok v =>
    rw [hn] at h
    simp only [Except.map] at h
    refine ⟨by unfold NewOk; rw [hn]; rfl, ?_⟩
    unfold pathName pathSize
    rw [hn]
    cases h
    rfl

/-- Processing the remainder `t` of the run whose earlier part ended at `p`
leaves `out` untouched and advances the accumulator across `t`. -/
theorem loopFrom_run (fs : FS) (t : List FileDesc) :
    ∀ (p : FileDesc) (rest : List FileDesc) (out : List ChkInfo) (ci : ChkInfo) (k tot : Nat),
      (∀ d ∈ t, d.name = p.name) →
      (∀ d ∈ t, NewOk fs d.path) →
      ChkInfo.new fs p.path k tot = .ok ci →
      k < 2 ^ 32 → tot < 2 ^ 64 →
      loopFrom fs (t ++ rest) (some p) out ci k tot
        = loopFrom fs rest (some ((p :: t).getLastD default)) out
            ⟨pathName fs ((p :: t).getLastD default).path,
              pathSize fs ((p :: t).getLastD default).path,
              (k + t.length) % 2 ^ 32, (tot + sumSizes t) % 2 ^ 64⟩
            ((k + t.length) % 2 ^ 32) ((tot + sumSizes t) % 2 ^ 64) := by
  induction t with
  | nil =>
    intro p rest out ci k tot hnames hok hci hk htot
    obtain ⟨hpok, hcieq⟩ := ChkInfo.new_ok_inv fs p.path k tot ci hci
    simp only [List.nil_append, List.getLastD_cons, List.getLastD_nil, sumSizes, List.map_nil,
      List.sum_nil, Nat.add_zero, List.length_nil]
    rw [Nat.mod_eq_of_lt hk, Nat.mod_eq_of_lt htot, ← hcieq]
  | cons d t ih =>
    intro p rest out ci k tot hnames hok hci hk htot
    have hd : d.name = p.name := hnames d (by simp)
    have hdok : NewOk fs d.path := hok d (by simp)
    rw [List.cons_append, loopFrom_cons]
    have hbody : statsBody fs (some p) (some d) out ci k tot =
        .ok (out, ⟨pathName fs d.path, pathSize fs d.path,
          (k + 1) % 2 ^ 32, (tot + d.size) % 2 ^ 64⟩,
          (k + 1) % 2 ^ 32, (tot + d.size) % 2 ^ 64) := by
      simp only [statsBody]
      rw [if_pos hd, ChkInfo.new_ok fs d.path hdok]
    rw [hbody]
    show loopFrom fs (t ++ rest) (some d) out _ _ _ = _
    rw [ih d rest out _ ((k + 1) % 2 ^ 32) ((tot + d.size) % 2 ^ 64)
      (fun e he => (hnames e (List.mem_cons_of_mem d he)).trans hd.symm)
      (fun e he => hok e (List.mem_cons_of_mem d he))
      (ChkInfo.new_ok fs d.path hdok ((k + 1) % 2 ^ 32) ((tot + d.size) % 2 ^ 64))
      (Nat.mod_lt _ (by norm_num)) (Nat.mod_lt _ (by norm_num))]
    have hk2 : ((k + 1) % 2 ^ 32 + t.length) % 2 ^ 32 = (k + (d :: t).length) % 2 ^ 32 := by
      rw [Nat.mod_add_mod, List.length_cons]
      have : k + 1 + t.length = k + (t.length + 1) := by omega
      rw [this]
    have ht2 : ((tot + d.size) % 2 ^ 64 + sumSizes t) % 2 ^ 64
        = (tot + sumSizes (d :: t)) % 2 ^ 64 := by
      rw [Nat.mod_add_mod]
      have hsum : sumSizes (d :: t) = d.size + sumSizes t := by
        simp [sumSizes]
      rw [hsum]
      have : tot + d.size + sumSizes t = tot + (d.size + sumSizes t) := by omega
      rw [this]
    rw [hk2, ht2]
    rfl

/-- Processing the flattened list of runs from a state whose pending group is
about to be flushed: each run contributes exactly one record. -/
theorem loopFrom_runs (fs : FS) (rs : List (List FileDesc)) :
    ∀ (p : FileDesc) (out : List ChkInfo) (ci : ChkInfo) (k tot : Nat),
      (∀ r ∈ rs, r ≠ []) →
      (∀ r ∈ rs, ∀ d ∈ r, d.name = runName r) →
      rs.Chain' (fun a b => runName a ≠ runName b) →
      (rs ≠ [] → runName rs.headI ≠ p.name) →
      (∀ d ∈ rs.flatten, NewOk fs d.path) →
      NewOk fs errPath2 →
      ChkInfo.new fs p.path k tot = .ok ci →
      loopFrom fs rs.flatten (some p) out ci k tot
        = .ok (out ++ ci :: rs.map (groupOf fs)) := by
  induction rs with
  | nil =>
    intro p out ci k tot hne hconst hchain hbound hall h2 hci
    rw [List.flatten_nil, loopFrom_nil_some, ChkInfo.new_ok fs errPath2 h2 0 0]
    simp
  | cons r rs ih =>
    intro p out ci k tot hne hconst hchain hbound hall h2 hci
    obtain ⟨d, t, rfl⟩ : ∃ d t, r = d :: t := by
      cases r with
      | nil => exact absurd rfl (hne [] (by simp))
      | cons d t => exact ⟨d, t, rfl⟩
    have hdp : ¬ d.name = p.name := by
      have hb := hbound (by simp)
      simpa [runName] using hb
    have hdok : NewOk fs d.path := hall d (by simp)
    have hnames2 : ∀ e ∈ t, e.name = d.name := by
      intro e he
      have := hconst (d :: t) (by simp) e (List.mem_cons_of_mem d he)
      simpa [runName] using this
    have hok2 : ∀ e ∈ t, NewOk fs e.path := by
      intro e he
      apply hall
      rw [List.flatten_cons]
      exact List.mem_append_left _ (List.mem_cons_of_mem d he)
    have hflat : ((d :: t) :: rs).flatten = d :: (t ++ rs.flatten) := by
      rw [List.flatten_cons, List.cons_append]
    rw [hflat, loopFrom_cons]
    have hbody : statsBody fs (some p) (some d) out ci k tot =
        .ok (out ++ [ci], ⟨pathName fs d.path, pathSize fs d.path,
          (0 + 1) % 2 ^ 32, (0 + d.size) % 2 ^ 64⟩,
          (0 + 1) % 2 ^ 32, (0 + d.size) % 2 ^ 64) := by
      simp only [statsBody]
      rw [if_neg hdp, ChkInfo.new_ok fs d.path hdok]
    rw [hbody]
    show loopFrom fs (t ++ rs.flatten) (some d) (out ++ [ci]) _ _ _ = _
    rw [loopFrom_run fs t d rs.flatten (out ++ [ci]) _ ((0 + 1) % 2 ^ 32)
      ((0 + d.size) % 2 ^ 64) hnames2 hok2
      (ChkInfo.new_ok fs d.path hdok ((0 + 1) % 2 ^ 32) ((0 + d.size) % 2 ^ 64))
      (Nat.mod_lt _ (by norm_num)) (Nat.mod_lt _ (by norm_num))]
    have hlast_mem : (d :: t).getLastD default ∈ d :: t := getLastD_mem _ _ (by simp)
    have hlast_name : ((d :: t).getLastD default).name = runName (d :: t) :=
      hconst _ (by simp) _ hlast_mem
    have hlast_ok : NewOk fs ((d :: t).getLastD default).path := by
      apply hall
      rw [List.flatten_cons]
      exact List.mem_append_left _ hlast_mem
    have hbound2 : rs ≠ [] → runName rs.headI ≠ ((d :: t).getLastD default).name := by
      intro hrs
      cases rs with
      | nil => exact absurd rfl hrs
      | cons s rs2 =>
        have hrel : runName (d :: t) ≠ runName s := (List.chain'_cons.mp hchain).1
        rw [hlast_name]
        exact fun hh => hrel hh.symm
    have hall2 : ∀ e ∈ rs.flatten, NewOk fs e.path := by
      intro e he
      apply hall
      rw [List.flatten_cons]
      exact List.mem_append_right _ he
    rw [ih ((d :: t).getLastD default) (out ++ [ci]) _
      (((0 + 1) % 2 ^ 32 + t.length) % 2 ^ 32) (((0 + d.size) % 2 ^ 64 + sumSizes t) % 2 ^ 64)
      (fun r2 h2m => hne r2 (List.mem_cons_of_mem _ h2m))
      (fun r2 h2m => hconst r2 (List.mem_cons_of_mem _ h2m))
      hchain.tail hbound2 hall2 h2
      (ChkInfo.new_ok fs ((d :: t).getLastD default).path hlast_ok _ _)]
    have hctr : ((0 + 1) % 2 ^ 32 + t.length) % 2 ^ 32 = (d :: t).length % 2 ^ 32 := by
      rw [Nat.zero_add, Nat.mod_add_mod, List.length_cons, Nat.add_comm 1 t.length]
    have htotal : ((0 + d.size) % 2 ^ 64 + sumSizes t) % 2 ^ 64
        = sumSizes (d :: t) % 2 ^ 64 := by
      rw [Nat.zero_add, Nat.mod_add_mod]
      have hsum : sumSizes (d :: t) = d.size + sumSizes t := by simp [sumSizes]
      rw [hsum]
    rw [hctr, htotal]
    show Except.ok ((out ++ [ci]) ++ groupOf fs (d :: t) :: rs.map (groupOf fs)) = _
    simp [groupOf]

/-- Master characterisation of the aggregator: on a flattened list of nonempty
constant-name runs with distinct adjacent names, it succeeds and returns
exactly one record per run, in run order. -/
theorem stats_runs (fs : FS) (rs : List (List FileDesc))
    (hne : ∀ r ∈ rs, r ≠ [])
    (hconst : ∀ r ∈ rs, ∀ d ∈ r, d.name = runName r)
    (hchain : rs.Chain' (fun a b => runName a ≠ runName b))
    (h1 : NewOk fs errPath1) (h2 : NewOk fs errPath2)
    (hall : ∀ d ∈ rs.flatten, NewOk fs d.path) :
    stats_from_file_desc_list fs rs.flatten = .ok (rs.map (groupOf fs)) := by
  rw [stats_from_file_desc_list, ChkInfo.new_ok fs errPath1 h1 0 0]
  cases rs with
  | nil =>
    show loopFrom fs ([] : List (List FileDesc)).flatten none [] _ 0 0 = _
    rw [List.flatten_nil, loopFrom_nil_none]
    rfl
  | cons r rs =>
    obtain ⟨d, t, rfl⟩ : ∃ d t, r = d :: t := by
      cases r with
      | nil => exact absurd rfl (hne [] (by simp))
      | cons d t => exact ⟨d, t, rfl⟩
    have hdok : NewOk fs d.path := hall d (by simp)
    have hnames2 : ∀ e ∈ t, e.name = d.name := by
      intro e he
      have := hconst (d :: t) (by simp) e (List.mem_cons_of_mem d he)
      simpa [runName] using this
    have hok2 : ∀ e ∈ t, NewOk fs e.path := by
      intro e he
      apply hall
      rw [List.flatten_cons]
      exact List.mem_append_left _ (List.mem_cons_of_mem d he)
    have hflat : ((d :: t) :: rs).flatten = d :: (t ++ rs.flatten) := by
      rw [List.flatten_cons, List.cons_append]
    rw [hflat]
    show loopFrom fs (d :: (t ++ rs.flatten)) none [] _ 0 0 = _
    rw [loopFrom_cons]
    have hbody : statsBody fs none (some d) []
        ⟨pathName fs errPath1, pathSize fs errPath1, 0, 0⟩ 0 0 =
        .ok ([], ⟨pathName fs d.path, pathSize fs d.path,
          (0 + 1) % 2 ^ 32, (0 + d.size) % 2 ^ 64⟩,
          (0 + 1) % 2 ^ 32, (0 + d.size) % 2 ^ 64) := by
      simp only [statsBody]
      rw [ChkInfo.new_ok fs d.path hdok]
    rw [hbody]
    show loopFrom fs (t ++ rs.flatten) (some d) [] _ _ _ = _
    rw [loopFrom_run fs t d rs.flatten [] _ ((0 + 1) % 2 ^ 32)
      ((0 + d.size) % 2 ^ 64) hnames2 hok2
      (ChkInfo.new_ok fs d.path hdok ((0 + 1) % 2 ^ 32) ((0 + d.size) % 2 ^ 64))
      (Nat.mod_lt _ (by norm_num)) (Nat.mod_lt _ (by norm_num))]
    have hlast_mem : (d :: t).getLastD default ∈ d :: t := getLastD_mem _ _ (by simp)
    have hlast_name : ((d :: t).getLastD default).name = runName (d :: t) :=
      hconst _ (by simp) _ hlast_mem
    have hlast_ok : NewOk fs ((d :: t).getLastD default).path := by
      apply hall
      rw [List.flatten_cons]
      exact List.mem_append_left _ hlast_mem
    have hbound2 : rs ≠ [] → runName rs.headI ≠ ((d :: t).getLastD default).name := by
      intro hrs
      cases rs with
      | nil => exact absurd rfl hrs
      | cons s rs2 =>
        have hrel : runName (d :: t) ≠ runName s := (List.chain'_cons.mp hchain).1
        rw [hlast_name]
        exact fun hh => hrel hh.symm
    have hall2 : ∀ e ∈ rs.flatten, NewOk fs e.path := by
      intro e he
      apply hall
      rw [List.flatten_cons]
      exact List.mem_append_right _ he
    rw [loopFrom_runs fs rs ((d :: t).getLastD default) [] _
      (((0 + 1) % 2 ^ 32 + t.length) % 2 ^ 32) (((0 + d.size) % 2 ^ 64 + sumSizes t) % 2 ^ 64)
      (fun r2 h2m => hne r2 (List.mem_cons_of_mem _ h2m))
      (fun r2 h2m => hconst r2 (List.mem_cons_of_mem _ h2m))
      hchain.tail hbound2 hall2 h2
      (ChkInfo.new_ok fs ((d :: t).getLastD default).path hlast_ok _ _)]
    have hctr : ((0 + 1) % 2 ^ 32 + t.length) % 2 ^ 32 = (d :: t).length % 2 ^ 32 := by
      rw [Nat.zero_add, Nat.mod_add_mod, List.length_cons, Nat.add_comm 1 t.length]
    have htotal : ((0 + d.size) % 2 ^ 64 + sumSizes t) % 2 ^ 64
        = sumSizes (d :: t) % 2 ^ 64 := by
      rw [Nat.zero_add, Nat.mod_add_mod]
      have hsum : sumSizes (d :: t) = d.size + sumSizes t := by simp [sumSizes]
      rw [hsum]
    rw [hctr, htotal]
    show Except.ok ([] ++ groupOf fs (d :: t) :: rs.map (groupOf fs)) = _
    simp [groupOf]

/-! ### Maximal runs of a descriptor list -/

/-- The decomposition of a descriptor list into its maximal consecutive
same-name runs. -/
def runsOf : List FileDesc → List (List FileDesc)
  | [] => []
  | d :: ds =>
    match runsOf ds with
    | [] => [[d]]
    | r :: rs => if runName r = d.name then (d :: r) :: rs else [d] :: r :: rs

theorem runsOf_flatten (l : List FileDesc) : (runsOf l).flatten = l := by
  induction l with
  | nil => rfl
  | cons d ds ih =>
    simp only [runsOf]
    cases h : runsOf ds with
    | nil =>
      rw [h] at ih
      simp only [List.flatten_nil] at ih
      simp [← ih]
    | cons r rs =>
      rw [h] at ih
      show (if runName r = d.name then (d :: r) :: rs else [d] :: r :: rs).flatten = d :: ds
      by_cases hr : runName r = d.name
      · rw [if_pos hr]
        simp only [List.flatten_cons] at ih ⊢
        rw [List.cons_append, ih]
      · rw [if_neg hr]
        simp only [List.flatten_cons] at ih ⊢
        rw [ih]
        rfl

theorem runsOf_ne_nil (l : List FileDesc) : ∀ r ∈ runsOf l, r ≠ [] := by
  induction l with
  | nil => intro r hr; simp [runsOf] at hr
  | cons d ds ih =>
    intro r hr
    simp only [runsOf] at hr
    cases h : runsOf ds with
    | nil =>
      rw [h] at hr
      simp at hr
      simp [hr]
    | cons r0 rs0 =>
      rw [h] at hr
      rw [h] at ih
      replace hr : r ∈ (if runName r0 = d.name then (d :: r0) :: rs0 else [d] :: r0 :: rs0) := hr
      by_cases hr0 : runName r0 = d.name
      · rw [if_pos hr0] at hr
        rcases List.mem_cons.mp hr with he | he
        · simp [he]
        · exact ih r (List.mem_cons_of_mem r0 he)
      · rw [if_neg hr0] at hr
        rcases List.mem_cons.mp hr with he | he
        · simp [he]
        · exact ih r he

theorem runsOf_const (l : List FileDesc) :
    ∀ r ∈ runsOf l, ∀ d ∈ r, d.name = runName r := by
  induction l with
  | nil => intro r hr; simp [runsOf] at hr
  | cons d ds ih =>
    intro r hr e he
    simp only [runsOf] at hr
    cases h : runsOf ds with
    | nil =>
      rw [h] at hr
      simp at hr
      subst hr
      simp only [List.mem_singleton] at he
      subst he
      rfl
    | cons r0 rs0 =>
      rw [h] at hr
      rw [h] at ih
      replace hr : r ∈ (if runName r0 = d.name then (d :: r0) :: rs0 else [d] :: r0 :: rs0) := hr
      by_cases hr0 : runName r0 = d.name
      · rw [if_pos hr0] at hr
        rcases List.mem_cons.mp hr with hre | hre
        · subst hre
          rcases List.mem_cons.mp he with hee | hee
          · subst hee; rfl
          · have := ih r0 (by simp) e hee
            rw [this, hr0]
            rfl
        · exact ih r (List.mem_cons_of_mem r0 hre) e he
      · rw [if_neg hr0] at hr
        rcases List.mem_cons.mp hr with hre | hre
        · subst hre
          simp only [List.mem_singleton] at he
          subst he
          rfl
        · exact ih r hre e he

theorem runsOf_chain (l : List FileDesc) :
    (runsOf l).Chain' (fun a b => runName a ≠ runName b) := by
  induction l with
  | nil => simp [runsOf]
  | cons d ds ih =>
    simp only [runsOf]
    cases h : runsOf ds with
    | nil => simp
    | cons r0 rs0 =>
      rw [h] at ih
      show List.Chain' (fun a b => runName a ≠ runName b)
        (if runName r0 = d.name then (d :: r0) :: rs0 else [d] :: r0 :: rs0)
      by_cases hr0 : runName r0 = d.name
      · rw [if_pos hr0]
        cases rs0 with
        | nil => simp
        | cons s rs1 =>
          have hrel : runName r0 ≠ runName s := (List.chain'_cons.mp ih).1
          refine List.chain'_cons.mpr ⟨?_, (List.chain'_cons.mp ih).2⟩
          show runName (d :: r0) ≠ runName s
          have hh : runName (d :: r0) = d.name := rfl
          rw [hh, ← hr0]
          exact hrel
      · rw [if_neg hr0]
        refine List.chain'_cons.mpr ⟨?_, ih⟩
        show runName [d] ≠ runName r0
        have hh : runName [d] = d.name := rfl
        rw [hh]
        exact fun hx => hr0 hx.symm

/-- The aggregator on an arbitrary descriptor list, characterised through its
maximal runs: when no unwrap fails it produces exactly one record per maximal
run, in first-occurrence order. -/
theorem stats_runsOf (fs : FS) (l : List FileDesc)
    (h1 : NewOk fs errPath1) (h2 : NewOk fs errPath2)
    (hall : ∀ d ∈ l, NewOk fs d.path) :
    stats_from_file_desc_list fs l = .ok ((runsOf l).map (groupOf fs)) := by
  have hf := runsOf_flatten l
  have hmain := stats_runs fs (runsOf l) (runsOf_ne_nil l) (runsOf_const l) (runsOf_chain l)
    h1 h2 (by rw [hf]; exact hall)
  rw [hf] at hmain
  exact hmain

/-! ### The ranker and renderer -/

/-- The ordering `Ord for ChkInfo` from the source compares `total_size`
alone. -/
def chkLe (a b : ChkInfo) : Prop := a.total_size ≤ b.total_size

instance : DecidableRel chkLe := fun a b => Nat.decLe a.total_size b.total_size

instance : IsTotal ChkInfo chkLe := ⟨fun a b => Nat.le_total a.total_size b.total_size⟩

instance : IsTrans ChkInfo chkLe := ⟨fun _ _ _ => Nat.le_trans⟩

/-- `collections_vec.sort()`: Rust's `Vec::sort` is a stable ascending sort
under `Ord for ChkInfo`.  A stable sort's output is uniquely determined by the
comparator and the input, so it is modelled with the stable
`List.insertionSort`. -/
def sortByTotal (v : List ChkInfo) : List ChkInfo := List.insertionSort chkLe v

/-- The retained row order of `chkout_list_to_string`: sort ascending by
`total_size`, reverse the whole vector, then take at most `limit` rows. -/
def chkoutSortedTruncated (limit : Nat) (v : List ChkInfo) : List ChkInfo :=
  ((sortByTotal v).reverse).take limit

/-- `u32::to_string` / `u64::to_string`. -/
def natToChars (n : Nat) : List Char := (Nat.repr n).toList

/-- Modelled from the spec: helper for the external size formatter -- a
decimal-unit quantity with up to two truncated fraction digits. -/
def decimalWith (n unit : Nat) (suffix : String) : List Char :=
  natToChars (n / unit) ++
    (if n % unit * 100 / unit = 0 then []
      else chars "." ++ natToChars (n % unit * 100 / unit)) ++ chars suffix

/-- Modelled from the spec: the external `humansize` crate's
`file_size(file_size_opts::DECIMAL)` rendering (not part of this repository).
The spec pins only sub-kilobyte outputs ("1 B", "2 B", "50 B"); larger values
get decimal-unit suffixes, and no theorem below depends on that branch. -/
def file_size_decimal (n : Nat) : List Char :=
  if n < 1000 then natToChars n ++ chars " B"
  else if n < 1000000 then decimalWith n 1000 " KB"
  else if n < 1000000000 then decimalWith n 1000000 " MB"
  else decimalWith n 1000000000 " GB"

/-- Right-pad a cell to the column width with spaces. -/
def padTo (w : Nat) (s : List Char) : List Char :=
  s ++ List.replicate (w - s.length) ' '

/-- The width of column `j` of a table: the length of its longest entry. -/
def colWidth (m : List (List (List Char))) (j : Nat) : Nat :=
  (m.map fun row => (row.getD j []).length).foldr max 0

/-- One rendered table row: every cell right-padded to its column width and
followed by a single separating space, except the last cell, which is output
bare (as the unit tests of the source file pin). -/
def renderRow (ws : List Nat) (row : List (List Char)) : List Char :=
  match ws, row with
  | _, [] => []
  | _, [c] => c
  | [], c :: cs => c ++ ' ' :: renderRow [] cs
  | w :: ws, c :: cs => padTo w c ++ ' ' :: renderRow ws cs

/-- Modelled from the spec: `format_table` from `top_items/common.rs`, which is
not under `src/`.  Spec section 4.5: per-table column widths pad each column
to its widest entry, columns are separated by one space, one row per line with
a trailing newline on every row including the header.  The exact strings are
cross-checked below against the unit tests embedded in the source file. -/
def format_table (m : List (List (List Char))) : List Char :=
  (m.map fun row =>
    renderRow ((List.range ((m.map List.length).foldr max 0)).map (colWidth m)) row
      ++ ['\n']).flatten

/-- The header row `Name Count Average Total`. -/
def headerRow : List (List Char) :=
  [chars "Name", chars "Count", chars "Average", chars "Total"]

/-- The data row built for one retained group: name, count, average
(`total_size / counter`, integer division) and total.  Rust would panic on a
zero divisor; `Nat` division is total here, and the division-safety claim
shows the divisor is nonzero for every aggregator output. -/
def chkoutRow (c : ChkInfo) : List (List Char) :=
  [c.name, natToChars c.counter, file_size_decimal (c.total_size / c.counter),
    file_size_decimal c.total_size]

/-- The table matrix `chkout_list_to_string` pushes: the header row followed by
one row per retained group. -/
def chkoutTableMatrix (limit : Nat) (v : List ChkInfo) : List (List (List Char)) :=
  headerRow :: (chkoutSortedTruncated limit v).map chkoutRow

/-- `chkout_list_to_string` from the source: the empty group list yields the
empty string; otherwise sort, reverse, truncate to `limit` rows, and format
the table. -/
def chkout_list_to_string (limit : Nat) (collections_vec : List ChkInfo) : List Char :=
  if collections_vec.isEmpty then []
  else format_table (chkoutTableMatrix limit collections_vec)

/-- Cross-check against the source's unit test `stats_from_file_desc_one`:
the groups of `[{path "crateA", name "crateA", size 1}]` rendered with
`limit = 1`. -/
theorem render_matches_unit_test_one :
    chkout_list_to_string 1
        ((runsOf [⟨[chars "crateA"], chars "crateA", 1⟩]).map (groupOf noFS))
      = chars "Name   Count Average Total\ncrateA 1     1 B     1 B\n" := by
  decide

/-- Cross-check against the source's unit test `stats_from_file_desc_two`:
two single-element groups render in descending total-size order. -/
theorem render_matches_unit_test_two :
    chkout_list_to_string 3
        ((runsOf [⟨[chars "crate-A"], chars "crate-A", 1⟩,
          ⟨[chars "crate-B"], chars "crate-B", 2⟩]).map (groupOf noFS))
      = chars "Name    Count Average Total\ncrate-B 1     2 B     2 B\ncrate-A 1     1 B     1 B\n" := by
  decide

/-- Cross-check against the source's unit test `stats_from_file_desc_multi`:
four groups aggregated from eight descriptors, rendered with `limit = 5`. -/
theorem render_matches_unit_test_multi :
    chkout_list_to_string 5
        ((runsOf [⟨[chars "crate-A"], chars "crate-A", 2⟩,
          ⟨[chars "crate-A"], chars "crate-A", 4⟩,
          ⟨[chars "crate-A"], chars "crate-A", 12⟩,
          ⟨[chars "crate-B"], chars "crate-B", 2⟩,
          ⟨[chars "crate-B"], chars "crate-B", 8⟩,
          ⟨[chars "crate-C"], chars "crate-C", 0⟩,
          ⟨[chars "crate-C"], chars "crate-C", 100⟩,
          ⟨[chars "crate-D"], chars "crate-D", 1⟩]).map (groupOf noFS))
      = chars "Name    Count Average Total\ncrate-C 2     50 B    100 B\ncrate-A 3     6 B     18 B\ncrate-B 2     5 B     10 B\ncrate-D 1     1 B     1 B\n" := by
  decide

/-! ### C6: empty input -/

/-- C6: an empty descriptor list aggregates to the empty group list (the
accumulator initialisation on the `ERROR 1/err1` placeholder must not panic,
which holds on any filesystem where that placeholder path does not exist or
has metadata), and rendering an empty group list gives the empty string for
every limit. -/
theorem stats_empty_and_render_empty (fs : FS) (limit : Nat)
    (h1 : NewOk fs errPath1) :
    stats_from_file_desc_list fs [] = .ok [] ∧ chkout_list_to_string limit [] = [] := by
  constructor
  · rw [stats_from_file_desc_list, ChkInfo.new_ok fs errPath1 h1 0 0]
    show loopFrom fs [] none [] _ 0 0 = .ok []
    rw [loopFrom_nil_none]
  · rfl

/-- Witness for C6 on the all-nonexistent filesystem with the unit test's
limit of 4. -/
theorem stats_empty_and_render_empty_witness :
    stats_from_file_desc_list noFS [] = .ok [] ∧ chkout_list_to_string 4 [] = [] :=
  stats_empty_and_render_empty noFS 4 (by decide)

/-! ### C1: the aggregation partitions the input -/

/-- The precondition of the aggregator: all descriptors sharing a name are
contiguous, i.e. distinct maximal runs never share a name. -/
def GroupedByName (l : List FileDesc) : Prop :=
  (runsOf l).Pairwise (fun a b => runName a ≠ runName b)

instance (l : List FileDesc) : Decidable (GroupedByName l) := by
  unfold GroupedByName
  exact inferInstance

/-- C1: on a contiguously-grouped input on which no unwrap fails, the group
list is exactly one group per maximal run, in input order, with the counter
equal to the run length and the total equal to the run's size sum (the two
bound hypotheses keep the `u32` counter and `u64` total inside their ranges,
so no wrapping occurs); consequently the counters sum to the input length. -/
theorem stats_partitions_input (fs : FS) (l : List FileDesc)
    (hgrp : GroupedByName l)
    (h1 : NewOk fs errPath1) (h2 : NewOk fs errPath2)
    (hall : ∀ d ∈ l, NewOk fs d.path)
    (hlen : ∀ r ∈ runsOf l, r.length < 2 ^ 32)
    (hsz : ∀ r ∈ runsOf l, sumSizes r < 2 ^ 64) :
    stats_from_file_desc_list fs l
        = .ok ((runsOf l).map fun r =>
            ⟨pathName fs (r.getLastD default).path, pathSize fs (r.getLastD default).path,
              r.length, sumSizes r⟩) ∧
      ((runsOf l).map fun r => r.length).sum = l.length := by
  constructor
  · rw [stats_runsOf fs l h1 h2 hall]
    congr 1
    apply List.map_congr_left
    intro r hr
    unfold groupOf
    rw [Nat.mod_eq_of_lt (hlen r hr), Nat.mod_eq_of_lt (hsz r hr)]
  · have hjoin := List.length_flatten (runsOf l)
    rw [runsOf_flatten] at hjoin
    exact hjoin.symm

/-- A small grouped descriptor list: a run of two `crate-A` descriptors
followed by one `crate-B` descriptor. -/
def wlistC1 : List FileDesc :=
  [⟨[chars "crate-A"], chars "crate-A", 2⟩, ⟨[chars "crate-A"], chars "crate-A", 4⟩,
    ⟨[chars "crate-B"], chars "crate-B", 10⟩]

/-- Witness for C1 on `wlistC1` over the all-nonexistent filesystem. -/
theorem stats_partitions_input_witness :
    stats_from_file_desc_list noFS wlistC1
        = .ok ((runsOf wlistC1).map fun r =>
            ⟨pathName noFS (r.getLastD default).path, pathSize noFS (r.getLastD default).path,
              r.length, sumSizes r⟩) ∧
      ((runsOf wlistC1).map fun r => r.length).sum = wlistC1.length :=
  stats_partitions_input noFS wlistC1 (by decide) (by decide) (by decide) (by decide)
    (by decide) (by decide)

/-! ### C2: where the group name really comes from -/

/-- A descriptor whose `name` field disagrees with what `ChkInfo::new`
derives from its path. -/
def c2desc : FileDesc := ⟨[chars "weird-path"], chars "crate-A", 1⟩

/-- C2 counterexample: all descriptors of the (single) run carry the name
field `crate-A`, yet the emitted group is named `weird-path`, taken from the
last descriptor's path -- the group name does not equal the shared name
field. -/
theorem stats_group_name_counterexample :
    (∀ d ∈ [c2desc], d.name = chars "crate-A") ∧
      stats_from_file_desc_list noFS [c2desc] = .ok [⟨chars "weird-path", 0, 1, 1⟩] ∧
      (⟨chars "weird-path", 0, 1, 1⟩ : ChkInfo).name ≠ chars "crate-A" := by
  refine ⟨by decide, ?_, by decide⟩
  have h := stats_runsOf noFS [c2desc] (by decide) (by decide) (by decide)
  rw [h]
  decide

/-- C2 (amended): each emitted group's name is the one `ChkInfo::new` computes
from the path of the last-seen descriptor of its run (the final path segment
when the path does not exist, else the parent segment with its last
hyphen-token dropped); it is not read from the descriptors' `name` field. -/
theorem stats_group_names (fs : FS) (l : List FileDesc)
    (h1 : NewOk fs errPath1) (h2 : NewOk fs errPath2)
    (hall : ∀ d ∈ l, NewOk fs d.path) :
    ∃ gs, stats_from_file_desc_list fs l = .ok gs ∧
      gs.length = (runsOf l).length ∧
      ∀ i, i < (runsOf l).length →
        (gs.getD i default).name
          = pathName fs (((runsOf l).getD i []).getLastD default).path := by
  refine ⟨(runsOf l).map (groupOf fs), stats_runsOf fs l h1 h2 hall, by simp, ?_⟩
  intro i hi
  have hrs : (runsOf l)[i]? = some ((runsOf l).getD i []) := by
    rw [List.getD_eq_getElem?_getD]
    cases hx : (runsOf l)[i]? with
    | none =>
      rw [List.getElem?_eq_none_iff] at hx
      omega
    | some v => rfl
  rw [List.getD_eq_getElem?_getD, List.getElem?_map, hrs]
  rfl

/-- Witness for the amended C2 on a one-descriptor list. -/
theorem stats_group_names_witness :
    ∃ gs, stats_from_file_desc_list noFS [⟨[chars "p-one"], chars "n", 3⟩] = .ok gs ∧
      gs.length = (runsOf [⟨[chars "p-one"], chars "n", 3⟩]).length ∧
      ∀ i, i < (runsOf [⟨[chars "p-one"], chars "n", 3⟩]).length →
        (gs.getD i default).name
          = pathName noFS (((runsOf [⟨[chars "p-one"], chars "n", 3⟩]).getD i []).getLastD
              default).path :=
  stats_group_names noFS [⟨[chars "p-one"], chars "n", 3⟩] (by decide) (by decide) (by decide)

/-! ### C4: counters are positive, the render division is safe -/

/-- C4: every group the aggregator emits has `counter ≥ 1` (the run-length
bound keeps the `u32` counter from wrapping), so the divisor of the
`total_size / counter` average taken inside `chkout_list_to_string` is nonzero
for every retained row of every aggregator output. -/
theorem stats_counter_positive (fs : FS) (l : List FileDesc)
    (h1 : NewOk fs errPath1) (h2 : NewOk fs errPath2)
    (hall : ∀ d ∈ l, NewOk fs d.path)
    (hlen : ∀ r ∈ runsOf l, r.length < 2 ^ 32) :
    ∀ gs, stats_from_file_desc_list fs l = .ok gs →
      (∀ g ∈ gs, 1 ≤ g.counter) ∧
      ∀ limit, ∀ g ∈ chkoutSortedTruncated limit gs, g.counter ≠ 0 := by
  intro gs hgs
  rw [stats_runsOf fs l h1 h2 hall] at hgs
  injection hgs with hmap
  have hmain : ∀ g ∈ gs, 1 ≤ g.counter := by
    intro g hg
    rw [← hmap] at hg
    obtain ⟨r, hr, rfl⟩ := List.mem_map.mp hg
    show 1 ≤ r.length % 2 ^ 32
    rw [Nat.mod_eq_of_lt (hlen r hr)]
    exact List.length_pos.mpr (runsOf_ne_nil l r hr)
  refine ⟨hmain, ?_⟩
  intro limit g hg
  have hg2 : g ∈ gs := by
    have h3 : g ∈ (sortByTotal gs).reverse := List.take_subset _ _ hg
    rw [List.mem_reverse] at h3
    exact (List.mem_insertionSort chkLe).mp h3
  exact Nat.one_le_iff_ne_zero.mp (hmain g hg2)

/-- Witness for C4 on `wlistC1`, using the aggregator output supplied by the
run characterisation. -/
theorem stats_counter_positive_witness :
    (∀ g ∈ (runsOf wlistC1).map (groupOf noFS), 1 ≤ g.counter) ∧
      ∀ limit, ∀ g ∈ chkoutSortedTruncated limit ((runsOf wlistC1).map (groupOf noFS)),
        g.counter ≠ 0 :=
  stats_counter_positive noFS wlistC1 (by decide) (by decide) (by decide) (by decide)
    ((runsOf wlistC1).map (groupOf noFS))
    (stats_runsOf noFS wlistC1 (by decide) (by decide) (by decide))

/-! ### C5: the limit truncates the table -/

/-- C5: the table matrix has at most `limit` data rows after the header, and
`limit = 0` on a nonempty group list renders exactly the header line with no
data rows. -/
theorem chkout_limit_truncates (limit : Nat) (v : List ChkInfo) (hv : v ≠ []) :
    (chkoutTableMatrix limit v).length ≤ limit + 1 ∧
      chkout_list_to_string 0 v = chars "Name Count Average Total\n" := by
  constructor
  · show (headerRow :: (chkoutSortedTruncated limit v).map chkoutRow).length ≤ limit + 1
    rw [List.length_cons, List.length_map]
    have hle : (chkoutSortedTruncated limit v).length ≤ limit := by
      unfold chkoutSortedTruncated
      rw [List.length_take]
      exact min_le_left _ _
    omega
  · cases v with
    | nil => exact absurd rfl hv
    | cons a vs =>
      show format_table (chkoutTableMatrix 0 (a :: vs)) = chars "Name Count Average Total\n"
      have hm : chkoutTableMatrix 0 (a :: vs) = [headerRow] := rfl
      rw [hm]
      decide

/-- Witness for C5 at `limit = 2` on a single group. -/
theorem chkout_limit_truncates_witness :
    (chkoutTableMatrix 2 [⟨chars "a", 0, 1, 1⟩]).length ≤ 2 + 1 ∧
      chkout_list_to_string 0 [⟨chars "a", 0, 1, 1⟩] = chars "Name Count Average Total\n" :=
  chkout_limit_truncates 2 [⟨chars "a", 0, 1, 1⟩] (by decide)

/-! ### C3: row order -- descending totals, ties reversed -/

/-- First group of the tie counterexample. -/
def cexG1 : ChkInfo := ⟨chars "first", 0, 1, 5⟩

/-- Second group of the tie counterexample, with the same total size. -/
def cexG2 : ChkInfo := ⟨chars "second", 0, 1, 5⟩

/-- C3 counterexample: two groups with equal `total_size`, given in the order
`first, second`; the retained rows come out as `second, first` -- the reverse
of their input order, not the input order the claim states. -/
theorem chkout_tie_order_counterexample :
    cexG1.total_size = cexG2.total_size ∧
      chkoutSortedTruncated 2 [cexG1, cexG2] = [cexG2, cexG1] ∧
      chkoutSortedTruncated 2 [cexG1, cexG2] ≠ [cexG1, cexG2] := by
  exact ⟨rfl, by decide, by decide⟩

theorem filter_orderedInsert (p : ChkInfo → Bool) (a : ChkInfo) (l : List ChkInfo)
    (hp : ∀ x y, p x = true → p y = true → chkLe x y) :
    (List.orderedInsert chkLe a l).filter p =
      if p a then a :: l.filter p else l.filter p := by
  induction l with
  | nil =>
    by_cases ha : p a <;> simp [List.orderedInsert, List.filter, ha]
  | cons b l ih =>
    show (if chkLe a b then a :: b :: l else b :: List.orderedInsert chkLe a l).filter p = _
    by_cases hab : chkLe a b
    · rw [if_pos hab]
      by_cases ha : p a <;> by_cases hb : p b <;>
        simp [List.filter_cons, ha, hb]
    · rw [if_neg hab]
      by_cases ha : p a
      · by_cases hb : p b
        · exact absurd (hp a b ha hb) hab
        · simp [List.filter_cons, ha, hb, ih]
      · by_cases hb : p b <;> simp [List.filter_cons, ha, hb, ih]

theorem filter_insertionSort (p : ChkInfo → Bool) (l : List ChkInfo)
    (hp : ∀ x y, p x = true → p y = true → chkLe x y) :
    (List.insertionSort chkLe l).filter p = l.filter p := by
  induction l with
  | nil => rfl
  | cons a l ih =>
    show (List.orderedInsert chkLe a (List.insertionSort chkLe l)).filter p = _
    rw [filter_orderedInsert p a _ hp, ih]
    by_cases ha : p a <;> simp [List.filter_cons, ha]

/-- C3 (amended): the retained rows are in descending `total_size` order, and
the groups of any fixed `total_size` appear in the REVERSE of their input
order -- the source sorts ascending with a stable sort and then reverses the
whole vector, which flips the relative order of ties. -/
theorem chkout_rows_sorted (limit : Nat) (v : List ChkInfo) :
    (chkoutSortedTruncated limit v).Pairwise (fun a b => b.total_size ≤ a.total_size) ∧
      ∀ k, (sortByTotal v).reverse.filter (fun c => c.total_size == k)
        = (v.filter (fun c => c.total_size == k)).reverse := by
  constructor
  · have hs : (sortByTotal v).Sorted chkLe := List.sorted_insertionSort chkLe v
    have hrev : (sortByTotal v).reverse.Pairwise (fun a b => chkLe b a) :=
      List.pairwise_reverse.mpr hs
    exact List.Pairwise.sublist (List.take_sublist limit _) hrev
  · intro k
    rw [List.filter_reverse]
    have hstable : (sortByTotal v).filter (fun c => c.total_size == k)
        = v.filter (fun c => c.total_size == k) := by
      apply filter_insertionSort
      intro x y hx hy
      have hx2 : x.total_size = k := by simpa using hx
      have hy2 : y.total_size = k := by simpa using hy
      show x.total_size ≤ y.total_size
      rw [hx2, hy2]
    rw [hstable]

/-! ### C10: the dead arm of the loop is never executed -/

theorem ChkInfo.new_no_unreachable (fs : FS) (path : PathBuf) (k t : Nat) :
    ChkInfo.new fs path k t ≠ .error .unreachableHit := by
  unfold ChkInfo.new
  by_cases he : fs.pathExists path
  · rw [if_pos he]
    cases path.dropLast.getLast? with
    | none => simp
    | some w =>
      cases fs.metadataLen path with
      | none => simp
      | some sz => simp
  · rw [if_neg he]
    cases path.getLast? with
    | none => simp
    | some w => simp

theorem statsBody_no_unreachable (fs : FS) (prev cur : Option FileDesc)
    (out : List ChkInfo) (ci : ChkInfo) (k t : Nat)
    (h : ¬ (prev.isNone && cur.isNone) = true) :
    statsBody fs prev cur out ci k t ≠ .error .unreachableHit := by
  match prev, cur with
  | none, none => simp at h
  | none, some c =>
    show (match ChkInfo.new fs c.path ((k + 1) % 2 ^ 32) ((t + c.size) % 2 ^ 64) with
          | Except.error e => Except.error e
          | Except.ok ci2 => Except.ok (out, ci2, (k + 1) % 2 ^ 32, (t + c.size) % 2 ^ 64))
        ≠ Except.error Panic.unreachableHit
    cases hn : ChkInfo.new fs c.path ((k + 1) % 2 ^ 32) ((t + c.size) % 2 ^ 64) with
    | error e =>
      have hno := ChkInfo.new_no_unreachable fs c.path ((k + 1) % 2 ^ 32) ((t + c.size) % 2 ^ 64)
      rw [hn] at hno
      simpa using hno
    | ok v => simp
  | some p, some c =>
    show (if c.name = p.name then _ else _) ≠ Except.error Panic.unreachableHit
    by_cases hname : c.name = p.name
    · rw [if_pos hname]
      cases hn : ChkInfo.new fs c.path ((k + 1) % 2 ^ 32) ((t + c.size) % 2 ^ 64) with
      | error e =>
        have hno := ChkInfo.new_no_unreachable fs c.path ((k + 1) % 2 ^ 32)
          ((t + c.size) % 2 ^ 64)
        rw [hn] at hno
        simpa [hn] using hno
      | ok v => simp [hn]
    · rw [if_neg hname]
      cases hn : ChkInfo.new fs c.path ((0 + 1) % 2 ^ 32) ((0 + c.size) % 2 ^ 64) with
      | error e =>
        have hno := ChkInfo.new_no_unreachable fs c.path ((0 + 1) % 2 ^ 32)
          ((0 + c.size) % 2 ^ 64)
        rw [hn] at hno
        simpa [hn] using hno
      | ok v => simp [hn]
  | some p, none =>
    show (match ChkInfo.new fs errPath2 0 0 with
          | Except.error e => Except.error e
          | Except.ok ci2 => Except.ok (out ++ [ci], ci2, 0, 0))
        ≠ Except.error Panic.unreachableHit
    cases hn : ChkInfo.new fs errPath2 0 0 with
    | error e =>
      have hno := ChkInfo.new_no_unreachable fs errPath2 0 0
      rw [hn] at hno
      simpa using hno
    | ok v => simp

theorem statsLoop_no_unreachable (fs : FS) (iter : List FileDesc)
    (prev cur : Option FileDesc) (out : List ChkInfo) (ci : ChkInfo) (k t : Nat) :
    statsLoop fs iter prev cur out ci k t ≠ .error .unreachableHit := by
  induction iter, prev, cur, out, ci, k, t using statsLoop.induct fs with
  | case1 iter prev cur out ci k t hguard =>
    rw [statsLoop, if_pos hguard]
    simp
  | case2 iter prev cur out ci k t hguard e hb =>
    rw [statsLoop, if_neg hguard, hb]
    have hbody := statsBody_no_unreachable fs prev cur out ci k t hguard
    rw [hb] at hbody
    simpa using hbody
  | case3 iter prev cur out ci k t hguard out2 ci2 k2 t2 hb ih =>
    rw [statsLoop, if_neg hguard, hb]
    exact ih

/-- C10: the dead arm of the aggregation loop (both window slots empty inside
the match) is never executed: for every filesystem and every input the
aggregator never aborts with `unreachableHit`. -/
theorem stats_never_unreachable (fs : FS) (l : List FileDesc) :
    stats_from_file_desc_list fs l ≠ .error .unreachableHit := by
  rw [stats_from_file_desc_list]
  cases h1 : ChkInfo.new fs errPath1 0 0 with
  | error e =>
    have hno := ChkInfo.new_no_unreachable fs errPath1 0 0
    rw [h1] at hno
    simpa using hno
  | ok ci => exact statsLoop_no_unreachable fs l.tail none l.head? [] ci 0 0

/-! ### C7: the report orchestrator -/

/-- Modelled from the spec: the cache collaborator (`DirCache` and its
`git_checkouts` bucket, defined outside `src/`): it supplies the list of
checkout folders and a precomputed total byte size for the scanned tree. -/
structure DirCache where
  checkout_folders : List PathBuf
  total_size : Nat

/-- Modelled from the spec: `dir_exists` from `top_items/common.rs` (not under
`src/`): whether the root path exists on the filesystem. -/
def dir_exists (fs : FS) (path : PathBuf) : Bool := fs.pathExists path

/-- `FileDesc::new_from_git_checkouts`: derive the name with `name_from_pb`
(whose failing unwraps panic), then sum the metadata lengths of every entry
of the directory walk that still exists; a failing metadata read panics.  The
walk enumeration itself comes from the `FS.walk` oracle (the external
`walkdir` crate). -/
def FileDesc.new_from_git_checkouts (fs : FS) (path : PathBuf) : Res FileDesc :=
  match name_from_pb path with
  | .error e => .error e
  | .ok name =>
    match ((fs.walk path).filter fs.pathExists).mapM fs.metadataLen with
    | none => .error .unwrapFailed
    | some sizes => .ok ⟨path, name, sizes.sum⟩

/-- `file_desc_from_path`: one descriptor per checkout folder of the cache. -/
def file_desc_from_path (fs : FS) (cache : DirCache) : Res (List FileDesc) :=
  cache.checkout_folders.mapM (FileDesc.new_from_git_checkouts fs)

/-- `path.display()`: the segments joined by `/`. -/
def displayPath : PathBuf → List Char
  | [] => []
  | [s] => s
  | s :: s2 :: rest => s ++ '/' :: displayPath (s2 :: rest)

/-- `git_checkouts_stats` from the source: the empty string if the root path
does not exist; otherwise a summary header whose total comes from the cache,
followed by the rendered table of the aggregated descriptor list. -/
def git_checkouts_stats (fs : FS) (path : PathBuf) (limit : Nat) (cache : DirCache) :
    Res (List Char) :=
  if ¬ dir_exists fs path then .ok [] else
    match file_desc_from_path fs cache with
    | .error e => .error e
    | .ok collections_vec =>
      match stats_from_file_desc_list fs collections_vec with
      | .error e => .error e
      | .ok summary =>
        .ok (chars "\nSummary of: " ++ displayPath path ++ chars " ("
          ++ file_size_decimal cache.total_size ++ chars " total)\n"
          ++ chkout_list_to_string limit summary)

/-- C7: when the root path does not exist on the filesystem, the report is the
empty string, for every limit and every cache contents -- no header and no
error. -/
theorem git_checkouts_stats_missing_root (fs : FS) (path : PathBuf) (limit : Nat)
    (cache : DirCache) (h : fs.pathExists path = false) :
    git_checkouts_stats fs path limit cache = .ok [] := by
  rw [git_checkouts_stats, if_pos]
  show ¬ dir_exists fs path = true
  rw [dir_exists, h]
  simp

/-- Witness for C7: a nonexistent root with a nonempty cache and a nonzero
limit. -/
theorem git_checkouts_stats_missing_root_witness :
    git_checkouts_stats noFS [chars "gone"] 3 ⟨[[chars "x"]], 42⟩ = .ok [] :=
  git_checkouts_stats_missing_root noFS [chars "gone"] 3 ⟨[[chars "x"]], 42⟩ rfl
